import Mathlib

/-!
Shallow embedding of `main.go` from Nerdmaster/dynamo-tx-stats.

Conventions of the embedding:
* instants are unix seconds as `ℤ`; the local timezone is a fixed offset
  `off : ℤ` seconds from UTC (the program uses `time.Local`; no DST is
  modelled — all date arithmetic in the source is plain instant arithmetic
  plus `Year/Month/Day/Hour/Minute/Second` accessors, which a fixed offset
  captures);
* Go `float64` amounts are modelled as `ℚ`; Go float division is modelled
  by `goDiv`, where `none` stands for the non-finite result (±Inf/NaN) that
  Go produces on division by zero;
* Go runtime panics (slice index out of range) are modelled by
  `Except RunFailure`;
* `ℤ` division `/` in Lean is Euclidean while Go truncates toward zero;
  the two agree on every division the source performs on its reachable
  path (non-negative numerator, positive denominator), which the proofs
  below establish where it matters.
-/

namespace DynamoTxStats

/-- The fields of `Transaction` (main.go lines 16-31) that the aggregation
logic reads. `Amount` is `float64` in Go, modelled as `ℚ`; `dt` is
derived from `TimeReceived` (`tx.dt = time.Unix(tx.TimeReceived, 0)`,
line 132), so it is not stored separately here. -/
structure Transaction where
  Amount : ℚ
  Confirmations : ℤ
  Generated : Bool
  Blockheight : ℤ
  TimeReceived : ℤ
deriving DecidableEq, Repr

/-- `StatData` (main.go lines 33-39). The `duration` field is never read
or written by the source, so it is omitted. All fields start at their
zero values, as Go zero-initialises them. -/
structure StatData where
  firstBlock : ℤ := 0
  lastBlock : ℤ := 0
  blocks : ℤ := 0
  coins : ℚ := 0
deriving DecidableEq, Repr

/-- The zero value of `StatData`, as produced by `var reportStats StatData`
and `make([]StatData, …)`. -/
def stat0 : StatData := {}

/-- `(*StatData).record` (main.go lines 41-50). -/
def record (s : StatData) (tx : Transaction) : StatData :=
  { firstBlock :=
      if s.firstBlock = 0 ∨ tx.Blockheight < s.firstBlock then tx.Blockheight
      else s.firstBlock
    lastBlock :=
      if tx.Blockheight > s.lastBlock then tx.Blockheight else s.lastBlock
    blocks := s.blocks + 1
    coins := s.coins + tx.Amount }

/-- `(*StatData).roughPercent` (main.go lines 52-57). -/
def roughPercent (s : StatData) : ℚ :=
  if s.blocks = 0 then 0
  else 100 * (s.blocks : ℚ) / ((s.lastBlock : ℚ) - (s.firstBlock : ℚ) + 1)

/-- `getDay` (main.go lines 59-61): the instant of local midnight of the
day containing `t`, with `off` the local UTC offset in seconds.
`(t + off) % 86400` is the number of seconds since local midnight
(`%` on `ℤ` is Euclidean, so the result is in `[0, 86400)` exactly as
Go's calendar accessors behave). -/
def getDay (off t : ℤ) : ℤ := t - (t + off) % 86400

/-- Go `time.Time.Hour()` of the instant `t` under local offset `off`. -/
def hourOf (off t : ℤ) : ℤ := (t + off) % 86400 / 3600

/-- Go `time.Time.Minute()` of the instant `t` under local offset `off`. -/
def minuteOf (off t : ℤ) : ℤ := (t + off) % 86400 % 3600 / 60

/-- Go `time.Time.Second()` of the instant `t` under local offset `off`. -/
def secondOf (off t : ℤ) : ℤ := (t + off) % 60

/-- `beginReport` (main.go lines 127-129):
`getDay(now).Add(time.Duration(reportDays-1) * time.Hour * -24)`. -/
def beginReport (off now : ℤ) (n : ℕ) : ℤ :=
  getDay off now - ((n : ℤ) - 1) * 86400

/-- The day-bucket index of a transaction (main.go line 147):
`int(tx.dt.Sub(beginReport) / time.Hour / 24)`. The `Duration`
nanosecond scaling cancels: `(d·10⁹) / (3600·10⁹) = d / 3600`.
Division here is Euclidean; on the reachable path the numerator is
non-negative (the filter has rejected `tx.dt.Before(beginReport)`), where
Euclidean and Go's truncating division agree. -/
def dayIndex (off now : ℤ) (n : ℕ) (tx : Transaction) : ℤ :=
  (tx.TimeReceived - beginReport off now n) / 3600 / 24

/-- The acceptance filter of the aggregation loop (main.go lines 134-143):
a transaction is skipped when `!tx.Generated`, or `tx.Confirmations < 2`,
or `tx.dt.Before(beginReport)`. -/
def accept (off now : ℤ) (n : ℕ) (tx : Transaction) : Bool :=
  tx.Generated && !(tx.Confirmations < 2) &&
    !(tx.TimeReceived < beginReport off now n)

/-- Go runtime failure: a slice access with an out-of-range index panics. -/
inductive RunFailure where
  | indexOutOfRange
deriving DecidableEq, Repr

/-- The mutable aggregation state of `main` (main.go lines 123-125):
`reportStats`, `dailyStats` (length `reportDays`) and `hourlyStats`
(length 24). -/
structure AggState where
  report : StatData
  daily : List StatData
  hourly : List StatData
deriving DecidableEq, Repr

/-- The initial aggregation state: zeroed accumulators, as produced by
`var reportStats StatData`, `make([]StatData, reportDays)` and
`make([]StatData, 24)`. -/
def initState (n : ℕ) : AggState :=
  ⟨stat0, List.replicate n stat0, List.replicate 24 stat0⟩

/-- Go `buckets[i].record(tx)` with the runtime bounds check: a panic
(`RunFailure.indexOutOfRange`) when `i` is outside `[0, len(buckets))`.
In bounds, element `i` is replaced by its `record` update. -/
def recordAt (buckets : List StatData) (i : ℤ) (tx : Transaction) :
    Except RunFailure (List StatData) :=
  if 0 ≤ i ∧ i.toNat < buckets.length then
    .ok (buckets.set i.toNat (record (buckets.getD i.toNat stat0) tx))
  else .error .indexOutOfRange

/-- One iteration of the aggregation loop (main.go lines 131-153): skip a
transaction the filter rejects; otherwise record into `reportStats`, into
`dailyStats[dayIndex]`, and — when `dayIndex == reportDays-1` — into
`hourlyStats[tx.dt.Hour()]`. -/
def step (off now : ℤ) (n : ℕ) (st : AggState) (tx : Transaction) :
    Except RunFailure AggState :=
  if accept off now n tx then do
    let report := record st.report tx
    let i := dayIndex off now n tx
    let daily ← recordAt st.daily i tx
    let hourly ←
      if i = (n : ℤ) - 1 then recordAt st.hourly (hourOf off tx.TimeReceived) tx
      else .ok st.hourly
    .ok ⟨report, daily, hourly⟩
  else .ok st

/-- The whole aggregation pass of `main` (main.go lines 131-153) over the
fetched transaction list. -/
def aggregate (off now : ℤ) (n : ℕ) (l : List Transaction) :
    Except RunFailure AggState :=
  l.foldlM (step off now n) (initState n)

/-- The data the report stage of `main` exposes: the timestamp printed as
"First tx was recorded at" and the final accumulator states. -/
structure Report where
  firstTxTime : ℤ
  stats : AggState
deriving DecidableEq, Repr

/-- The aggregation pass followed by `var first = txList[0]`
(main.go line 155): on an empty fetched list, indexing `txList[0]`
panics (index out of range). -/
def runReport (off now : ℤ) (n : ℕ) (l : List Transaction) :
    Except RunFailure Report := do
  let st ← aggregate off now n l
  match l with
  | [] => .error .indexOutOfRange
  | t :: _ => .ok ⟨t.TimeReceived, st⟩

/-- The timestamp `main` reports as "First tx was recorded at"
(main.go lines 155-156): the `TimeReceived` of `txList[0]`, the first
transaction in input order (`tx.dt` was set for every element of
`txList` at line 132 before any filtering). -/
def firstReported (l : List Transaction) : Option ℤ :=
  l.head?.map (fun tx => tx.TimeReceived)

/-- Modelled from the spec: "the earliest-timestamped transaction's
timestamp across the *entire* unfiltered input" (§4.2 step 4). Stated
for comparison with `firstReported`, the value the source computes. -/
def specEarliest (l : List Transaction) : Option ℤ :=
  (l.map (fun tx => tx.TimeReceived)).min?

/-- `hours` for the current (last) day bucket (main.go line 169):
`float64(now.Hour()) + float64(now.Minute())/60.0`. -/
def elapsedHours (off now : ℤ) : ℚ :=
  (hourOf off now : ℚ) + (minuteOf off now : ℚ) / 60

/-- `minutes` for the current hour bucket (main.go line 181):
`float64(now.Minute()) + float64(now.Second())/60`. -/
def elapsedMinutes (off now : ℤ) : ℚ :=
  (minuteOf off now : ℚ) + (secondOf off now : ℚ) / 60

/-- Go `float64` division: `none` models the non-finite value (±Inf or
NaN) Go produces when the divisor is zero. -/
def goDiv (a b : ℚ) : Option ℚ :=
  if b = 0 then none else some (a / b)

/-- The projection `main` prints for the current day bucket
(main.go line 170): `coins/hours*24`, computed unconditionally whenever
`i == reportDays-1`. -/
def dailyProjection (off now : ℤ) (coins : ℚ) : Option ℚ :=
  (goDiv coins (elapsedHours off now)).map (fun r => r * 24)

/-- The projection `main` prints for the current hour bucket
(main.go line 182): `coins/minutes*60`, computed unconditionally whenever
`i == now.Hour()`. -/
def hourlyProjection (off now : ℤ) (coins : ℚ) : Option ℚ :=
  (goDiv coins (elapsedMinutes off now)).map (fun r => r * 60)

/-- The `StatData` states reachable by a sequence of `record` calls from
the zero value — exactly the states an accumulator of this program can
be in. -/
inductive Reachable : StatData → Prop where
  | init : Reachable stat0
  | step {s : StatData} (tx : Transaction) : Reachable s → Reachable (record s tx)

/-- The routing predicate of daily bucket `j`: accepted and
`dayIndex == j` (main.go lines 147-148). -/
def dailyPred (off now : ℤ) (n : ℕ) (j : ℕ) (tx : Transaction) : Bool :=
  accept off now n tx && (dayIndex off now n tx == (j : ℤ))

/-- The routing predicate of hourly bucket `h`: accepted, on the last day
(`dayIndex == reportDays-1`), and `tx.dt.Hour() == h`
(main.go lines 150-152). -/
def hourlyPred (off now : ℤ) (n : ℕ) (h : ℕ) (tx : Transaction) : Bool :=
  accept off now n tx && (dayIndex off now n tx == (n : ℤ) - 1) &&
    (hourOf off tx.TimeReceived == (h : ℤ))

/-- Folding `record` over a list of transactions from a given start state:
the pure core of the aggregation loop, used to characterise each bucket. -/
def statOf (s : StatData) (l : List Transaction) : StatData :=
  l.foldl record s

/-- The final aggregation state expressed bucket by bucket: each bucket is
`record` folded over exactly the sublist its routing predicate selects.
`aggregate` is proved equal to this below. -/
def specAgg (off now : ℤ) (n : ℕ) (l : List Transaction) : AggState :=
  ⟨statOf stat0 (l.filter (accept off now n)),
   (List.range n).map (fun j => statOf stat0 (l.filter (dailyPred off now n j))),
   (List.range 24).map (fun h => statOf stat0 (l.filter (hourlyPred off now n h)))⟩

/-- The sum of `g` over the elements of `l` selected by `p`; instantiated
with `Transaction.Amount` for coin sums and with the constant `1` for
counts. -/
def wsum {M : Type} [AddCommMonoid M] (g : Transaction → M)
    (p : Transaction → Bool) (l : List Transaction) : M :=
  ((l.filter p).map g).sum

/-- Invariants of every reachable accumulator state: the minimum block is
never above the maximum, and the maximum is never negative. -/
theorem reachable_bounds {s : StatData} (h : Reachable s) :
    s.firstBlock ≤ s.lastBlock ∧ 0 ≤ s.lastBlock := by
  induction h with
  | init => exact ⟨le_refl 0, le_refl 0⟩
  | step tx _ ih =>
    simp only [record, gt_iff_lt]
    constructor
    · split <;> split <;> omega
    · split <;> omega

/-- C7: `roughPercent` returns 0 on an empty accumulator, and otherwise
returns `100 * count / (lastBlock - firstBlock + 1)` with a provably
non-zero denominator: on every reachable accumulator state the source
never divides by zero in `roughPercent` (main.go lines 52-57). -/
theorem roughPercent_spec {s : StatData} (hr : Reachable s) :
    (s.blocks = 0 → roughPercent s = 0) ∧
    (s.blocks ≠ 0 →
      ((s.lastBlock : ℚ) - (s.firstBlock : ℚ) + 1 ≠ 0 ∧
        roughPercent s =
          100 * (s.blocks : ℚ) / ((s.lastBlock : ℚ) - (s.firstBlock : ℚ) + 1))) := by
  obtain ⟨h1, _⟩ := reachable_bounds hr
  refine ⟨fun h0 => by simp [roughPercent, h0], fun h0 => ?_⟩
  have hle : (s.firstBlock : ℚ) ≤ (s.lastBlock : ℚ) := by exact_mod_cast h1
  exact ⟨ne_of_gt (by linarith), by simp [roughPercent, h0]⟩

/-- Witness for C7 at the concrete state obtained by recording one
transaction of block height 5 into a fresh accumulator. -/
theorem roughPercent_spec_witness :
    ((record stat0 ⟨1, 5, true, 5, 0⟩).blocks = 0 →
      roughPercent (record stat0 ⟨1, 5, true, 5, 0⟩) = 0) ∧
    ((record stat0 ⟨1, 5, true, 5, 0⟩).blocks ≠ 0 →
      (((record stat0 ⟨1, 5, true, 5, 0⟩).lastBlock : ℚ) -
          ((record stat0 ⟨1, 5, true, 5, 0⟩).firstBlock : ℚ) + 1 ≠ 0 ∧
        roughPercent (record stat0 ⟨1, 5, true, 5, 0⟩) =
          100 * ((record stat0 ⟨1, 5, true, 5, 0⟩).blocks : ℚ) /
            (((record stat0 ⟨1, 5, true, 5, 0⟩).lastBlock : ℚ) -
              ((record stat0 ⟨1, 5, true, 5, 0⟩).firstBlock : ℚ) + 1))) :=
  roughPercent_spec (Reachable.step _ Reachable.init)

/-- C10: on a reachable accumulator whose `firstBlock` is positive,
recording a transaction of block height 0 resets `firstBlock` to 0 (the
`s.firstBlock == 0 || tx.Blockheight < s.firstBlock` comparison treats
the sentinel height 0 as a genuine minimum) and leaves `lastBlock`
unchanged (main.go lines 41-47). -/
theorem record_zero_height {s : StatData} (tx : Transaction)
    (hr : Reachable s) (hf : 0 < s.firstBlock) (h0 : tx.Blockheight = 0) :
    (record s tx).firstBlock = 0 ∧ (record s tx).lastBlock = s.lastBlock := by
  obtain ⟨_, h2⟩ := reachable_bounds hr
  constructor
  · simp only [record, h0]
    rw [if_pos (Or.inr hf)]
  · simp only [record, h0, gt_iff_lt]
    rw [if_neg (by omega)]

/-- Witness for C10: a state holding one height-5 transaction, then a
height-0 transaction is recorded. -/
theorem record_zero_height_witness :
    0 < (record stat0 ⟨1, 5, true, 5, 0⟩).firstBlock ∧
    (record (record stat0 ⟨1, 5, true, 5, 0⟩) ⟨1, 5, true, 0, 0⟩).firstBlock = 0 ∧
    (record (record stat0 ⟨1, 5, true, 5, 0⟩) ⟨1, 5, true, 0, 0⟩).lastBlock =
      (record stat0 ⟨1, 5, true, 5, 0⟩).lastBlock :=
  ⟨by decide,
   record_zero_height _ (Reachable.step _ Reachable.init) (by decide) (by decide)⟩

/-- The day-index bound: a timestamp in `[beginReport, now]` yields a day
index in `[0, n)`. -/
theorem dayIndex_bounds_aux (off now : ℤ) (n : ℕ) (tx : Transaction)
    (hn : 1 ≤ n)
    (h1 : beginReport off now n ≤ tx.TimeReceived)
    (h2 : tx.TimeReceived ≤ now) :
    0 ≤ dayIndex off now n tx ∧ dayIndex off now n tx < (n : ℤ) := by
  have hm0 : 0 ≤ (now + off) % 86400 := Int.emod_nonneg _ (by norm_num)
  have hm1 : (now + off) % 86400 < 86400 := Int.emod_lt_of_pos _ (by norm_num)
  have hn1 : (1 : ℤ) ≤ (n : ℤ) := by exact_mod_cast hn
  have hd0 : 0 ≤ tx.TimeReceived - beginReport off now n := by omega
  have hd1 : tx.TimeReceived - beginReport off now n < (n : ℤ) * 86400 := by
    simp only [beginReport, getDay] at h1 h2 ⊢
    have : (n : ℤ) * 86400 = 86400 + ((n : ℤ) - 1) * 86400 := by ring
    omega
  have hq0 : 0 ≤ (tx.TimeReceived - beginReport off now n) / 3600 :=
    Int.ediv_nonneg hd0 (by norm_num)
  have hq1 : (tx.TimeReceived - beginReport off now n) / 3600 < (n : ℤ) * 24 := by
    rw [Int.ediv_lt_iff_lt_mul (by norm_num : (0:ℤ) < 3600)]
    calc tx.TimeReceived - beginReport off now n < (n : ℤ) * 86400 := hd1
    _ = (n : ℤ) * 24 * 3600 := by ring
  exact ⟨Int.ediv_nonneg hq0 (by norm_num),
    (Int.ediv_lt_iff_lt_mul (by norm_num : (0:ℤ) < 24)).2 hq1⟩

/-- C9: any transaction whose timestamp is at least `beginReport` and at
most `now` gets a day index in `[0, reportDays-1]`, so the access
`dailyStats[dayIndex]` (main.go lines 147-148) is in bounds. -/
theorem dayIndex_in_bounds (off now : ℤ) (n : ℕ) (tx : Transaction)
    (hn : 1 ≤ n)
    (h1 : beginReport off now n ≤ tx.TimeReceived)
    (h2 : tx.TimeReceived ≤ now) :
    0 ≤ dayIndex off now n tx ∧ dayIndex off now n tx < (n : ℤ) :=
  dayIndex_bounds_aux off now n tx hn h1 h2

/-- Witness for C9: `off = 0`, `now = 900000` (day 10, 10:00 local),
`reportDays = 2`, a transaction received at 899900 (today). -/
theorem dayIndex_in_bounds_witness :
    beginReport 0 900000 2 ≤ (899900 : ℤ) ∧ (899900 : ℤ) ≤ 900000 ∧
    (0 ≤ dayIndex 0 900000 2 ⟨1, 5, true, 5, 899900⟩ ∧
      dayIndex 0 900000 2 ⟨1, 5, true, 5, 899900⟩ < (2 : ℤ)) :=
  ⟨by decide, by decide,
   dayIndex_in_bounds 0 900000 2 ⟨1, 5, true, 5, 899900⟩ (by norm_num)
     (by decide) (by decide)⟩

/-- C4: evaluation of the projection code at its failing input. When the
report runs at exact local midnight (`now.Hour() = 0`, `now.Minute() = 0`,
here `off = 0`, `now = 864000`), the last-day projection
`coins/hours*24` (main.go line 170) divides by `hours = 0`, and the
current-hour projection `coins/minutes*60` (main.go line 182) divides by
`minutes = 0`: `goDiv` reports the non-finite result (`none`) that Go
float64 division by zero produces, while the source still attaches the
projection instead of defining the rate as 0 and omitting it. -/
theorem projection_divides_by_zero_at_midnight :
    elapsedHours 0 864000 = 0 ∧ dailyProjection 0 864000 5 = none ∧
    elapsedMinutes 0 864000 = 0 ∧ hourlyProjection 0 864000 5 = none := by
  have h1 : elapsedHours 0 864000 = 0 := by
    simp [elapsedHours, hourOf, minuteOf]
  have h2 : elapsedMinutes 0 864000 = 0 := by
    simp [elapsedMinutes, minuteOf, secondOf]
  refine ⟨h1, ?_, h2, ?_⟩
  · simp [dailyProjection, goDiv, h1]
  · simp [hourlyProjection, goDiv, h2]

/-- Counterexample to C5: with input order `[t(ts=100), t(ts=50)]` the
source reports the timestamp of `txList[0]` (main.go line 155), namely
100, while the earliest timestamp across the input is 50. -/
theorem firstReported_not_earliest :
    firstReported [⟨1, 5, true, 5, 100⟩, ⟨2, 5, true, 6, 50⟩] = some 100 ∧
    specEarliest [⟨1, 5, true, 5, 100⟩, ⟨2, 5, true, 6, 50⟩] = some 50 ∧
    firstReported [⟨1, 5, true, 5, 100⟩, ⟨2, 5, true, 6, 50⟩] ≠
      specEarliest [⟨1, 5, true, 5, 100⟩, ⟨2, 5, true, 6, 50⟩] := by
  refine ⟨rfl, ?_, ?_⟩ <;> decide

/-- C5 as amended: the "first transaction recorded at" fact is the
timestamp of the first transaction in input order (`txList[0]`,
main.go lines 155-156); it coincides with the earliest timestamp across
the whole input only when the head's timestamp is minimal (in particular
when the input arrives in chronological order). -/
theorem firstReported_input_order (x : Transaction) (xs : List Transaction) :
    firstReported (x :: xs) = some x.TimeReceived ∧
    ((∀ y ∈ xs, x.TimeReceived ≤ y.TimeReceived) →
      specEarliest (x :: xs) = some x.TimeReceived) := by
  refine ⟨rfl, fun h => ?_⟩
  have key : ∀ (L : List ℤ) (a : ℤ), (∀ y ∈ L, a ≤ y) → L.foldl min a = a := by
    intro L
    induction L with
    | nil => intro a _; rfl
    | cons b L ih =>
      intro a ha
      rw [List.foldl_cons, min_eq_left (ha b (by simp))]
      exact ih a fun y hy => ha y (by simp [hy])
  show ((x :: xs).map (fun tx => tx.TimeReceived)).min? = some x.TimeReceived
  rw [List.map_cons]
  show some ((xs.map (fun tx => tx.TimeReceived)).foldl min x.TimeReceived) =
    some x.TimeReceived
  rw [key _ _ (by intro y hy; obtain ⟨a, ha, rfl⟩ := List.mem_map.1 hy; exact h a ha)]

/-- Witness for C5's amended statement: a two-element chronologically
ordered input. -/
theorem firstReported_input_order_witness :
    firstReported [⟨1, 5, true, 5, 50⟩, ⟨1, 5, true, 5, 60⟩] = some 50 ∧
    specEarliest [⟨1, 5, true, 5, 50⟩, ⟨1, 5, true, 5, 60⟩] = some 50 := by
  have h := firstReported_input_order ⟨1, 5, true, 5, 50⟩ [⟨1, 5, true, 5, 60⟩]
  exact ⟨h.1, h.2 (by decide)⟩

/-- Bind of an `ok` value in the `Except RunFailure` monad. -/
theorem ok_bind {α β : Type} (a : α) (f : α → Except RunFailure β) :
    (Except.ok a >>= f) = f a := rfl

/-- A pass of the aggregation loop over transactions that all fail the
acceptance filter leaves the state untouched. -/
theorem foldlM_step_all_rejected (off now : ℤ) (n : ℕ) :
    ∀ (l : List Transaction) (st : AggState),
      (∀ tx ∈ l, accept off now n tx = false) →
      List.foldlM (step off now n) st l = .ok st := by
  intro l
  induction l with
  | nil => intro st _; rfl
  | cons t l ih =>
    intro st h
    rw [List.foldlM_cons]
    have ht : accept off now n t = false := h t (by simp)
    simp only [step, ht, Bool.false_eq_true, if_false]
    rw [ok_bind]
    exact ih st fun tx htx => h tx (by simp [htx])

/-- Counterexample to C6: on an empty fetched transaction list the source
reaches `txList[0]` (main.go line 155) and panics with an index
out of range — it crashes instead of signalling a distinct
`EmptyResultError`-style failure (no such error exists in the source). -/
theorem runReport_empty_panics :
    runReport 0 900000 2 ([] : List Transaction) =
      .error RunFailure.indexOutOfRange := rfl

/-- C6 as amended: an empty fetched list makes the program panic (index
out of range at `txList[0]`, main.go line 155) rather than signal a
distinct usage-level error, while a non-empty list in which no
transaction passes the filter still yields a report whose accumulators
are all zero. -/
theorem runReport_empty_vs_all_filtered (off now : ℤ) (n : ℕ) :
    runReport off now n [] = .error RunFailure.indexOutOfRange ∧
    ∀ (t : Transaction) (l : List Transaction),
      (∀ tx ∈ t :: l, accept off now n tx = false) →
      runReport off now n (t :: l) = .ok ⟨t.TimeReceived, initState n⟩ := by
  constructor
  · rfl
  · intro t l h
    have hagg : aggregate off now n (t :: l) = .ok (initState n) :=
      foldlM_step_all_rejected off now n (t :: l) (initState n) h
    simp only [runReport, hagg, ok_bind]

/-- Witness for C6's amended statement: the empty list panics, and a
single non-generated transaction yields the all-zero report. -/
theorem runReport_empty_vs_all_filtered_witness :
    runReport 0 900000 2 [] = .error RunFailure.indexOutOfRange ∧
    runReport 0 900000 2 [⟨1, 0, false, 0, 899900⟩] =
      .ok ⟨899900, initState 2⟩ := by
  have h := runReport_empty_vs_all_filtered 0 900000 2
  exact ⟨h.1, h.2 ⟨1, 0, false, 0, 899900⟩ [] (by decide)⟩

/-- Reading back the element just written by `List.set`. -/
theorem getD_set_self (d : List StatData) (i : ℕ) (v : StatData)
    (h : i < d.length) : (d.set i v).getD i stat0 = v := by
  rw [List.getD_eq_getElem _ _ (by simpa using h)]
  exact List.getElem_set_self _

/-- Reading an element other than the one written by `List.set`. -/
theorem getD_set_ne (d : List StatData) (i j : ℕ) (v : StatData)
    (hne : i ≠ j) (hj : j < d.length) :
    (d.set i v).getD j stat0 = d.getD j stat0 := by
  rw [List.getD_eq_getElem _ _ (by simpa using hj),
    List.getD_eq_getElem _ _ hj]
  exact List.getElem_set_ne hne _

/-- Indexing the table built by mapping a function over `List.range`. -/
theorem getD_range_map (f : ℕ → StatData) (n j : ℕ) (h : j < n) :
    ((List.range n).map f).getD j stat0 = f j := by
  rw [List.getD_eq_getElem _ _ (by simpa using h)]
  simp

/-- Every list of accumulators is the table of its own reads. -/
theorem eq_range_map_getD (d : List StatData) :
    (List.range d.length).map (fun j => d.getD j stat0) = d := by
  apply List.ext_getElem
  · simp
  · intro i h1 h2
    rw [List.getElem_map]
    simp [List.getD_eq_getElem _ _ h2, List.getElem?_eq_getElem h2]

/-- Indexing `List.replicate` always reads the replicated element. -/
theorem getD_replicate (n j : ℕ) : (List.replicate n stat0).getD j stat0 = stat0 := by
  rcases Nat.lt_or_ge j n with h | h
  · rw [List.getD_eq_getElem _ _ (by simpa using h)]
    exact List.getElem_replicate _ _
  · rw [List.getD_eq_getElem?_getD]
    rw [List.getElem?_eq_none (by simpa using h)]
    rfl

/-- `time.Time.Hour()` is never negative. -/
theorem hourOf_nonneg (off t : ℤ) : 0 ≤ hourOf off t :=
  Int.ediv_nonneg (Int.emod_nonneg _ (by norm_num)) (by norm_num)

/-- `time.Time.Hour()` is below 24, so `hourlyStats[tx.dt.Hour()]`
(main.go line 151) is always in bounds. -/
theorem hourOf_lt (off t : ℤ) : hourOf off t < 24 := by
  have h := Int.emod_lt_of_pos (t + off) (show (0:ℤ) < 86400 by norm_num)
  show (t + off) % 86400 / 3600 < 24
  exact (Int.ediv_lt_iff_lt_mul (by norm_num)).2 (by omega)

/-- An in-bounds `recordAt` is the pure `List.set` update. -/
theorem recordAt_ok (buckets : List StatData) (i : ℤ) (tx : Transaction)
    (h0 : 0 ≤ i) (h1 : i.toNat < buckets.length) :
    recordAt buckets i tx =
      .ok (buckets.set i.toNat (record (buckets.getD i.toNat stat0) tx)) := by
  simp [recordAt, h0, h1]

/-- A transaction the loop accepts has `beginReport ≤ tx.TimeReceived`. -/
theorem accept_le_time {off now : ℤ} {n : ℕ} {tx : Transaction}
    (h : accept off now n tx = true) :
    beginReport off now n ≤ tx.TimeReceived := by
  simp only [accept, Bool.and_eq_true, Bool.not_eq_true',
    decide_eq_false_iff_not, not_lt] at h
  exact h.2

/-- Under wallet-observed timestamps (`tx.TimeReceived ≤ now`), every
accepted transaction's day index is in `[0, n)`. -/
theorem accepted_bounds {off now : ℤ} {n : ℕ} {l : List Transaction}
    (hn : 1 ≤ n) (hts : ∀ tx ∈ l, tx.TimeReceived ≤ now) :
    ∀ tx ∈ l, accept off now n tx = true →
      0 ≤ dayIndex off now n tx ∧ dayIndex off now n tx < (n : ℤ) :=
  fun tx hm hacc =>
    dayIndex_bounds_aux off now n tx hn (accept_le_time hacc) (hts tx hm)

/-- The aggregation loop, started from any well-sized state, never panics
and produces bucket by bucket the fold of `record` over exactly the
sublist each routing predicate selects. -/
theorem foldlM_step_eq (off now : ℤ) (n : ℕ) :
    ∀ (l : List Transaction) (st : AggState),
      st.daily.length = n → st.hourly.length = 24 →
      (∀ tx ∈ l, accept off now n tx = true →
        0 ≤ dayIndex off now n tx ∧ dayIndex off now n tx < (n : ℤ)) →
      List.foldlM (step off now n) st l =
        .ok ⟨statOf st.report (l.filter (accept off now n)),
             (List.range n).map (fun j =>
               statOf (st.daily.getD j stat0) (l.filter (dailyPred off now n j))),
             (List.range 24).map (fun h =>
               statOf (st.hourly.getD h stat0) (l.filter (hourlyPred off now n h)))⟩ := by
  intro l
  induction l with
  | nil =>
    intro st hd hh _
    simp only [List.foldlM_nil, List.filter_nil]
    have e2 : (List.range n).map (fun j => statOf (st.daily.getD j stat0) []) =
        st.daily := by
      rw [← hd]; exact eq_range_map_getD st.daily
    have e3 : (List.range 24).map (fun h => statOf (st.hourly.getD h stat0) []) =
        st.hourly := by
      rw [← hh]; exact eq_range_map_getD st.hourly
    rw [e2, e3]
    rfl
  | cons tx l ih =>
    intro st hd hh hin
    rw [List.foldlM_cons]
    by_cases hacc : accept off now n tx = true
    · obtain ⟨hge, hlt⟩ := hin tx (List.mem_cons_self tx l) hacc
      have hn' : n ≠ 0 := by omega
      have hitoNat : (dayIndex off now n tx).toNat < n :=
        (Int.toNat_lt' hn').2 hlt
      have hicast : ((dayIndex off now n tx).toNat : ℤ) = dayIndex off now n tx :=
        Int.toNat_of_nonneg hge
      have hh24 : (hourOf off tx.TimeReceived).toNat < 24 :=
        (Int.toNat_lt' (by norm_num)).2 (hourOf_lt off tx.TimeReceived)
      have hhcast : ((hourOf off tx.TimeReceived).toNat : ℤ) = hourOf off tx.TimeReceived :=
        Int.toNat_of_nonneg (hourOf_nonneg off tx.TimeReceived)
      have htail : ∀ tx' ∈ l, accept off now n tx' = true →
          0 ≤ dayIndex off now n tx' ∧ dayIndex off now n tx' < (n : ℤ) :=
        fun tx' h' => hin tx' (List.mem_cons_of_mem _ h')
      have e2core : ∀ (dl : List StatData), dl.length = n →
          (List.range n).map (fun j =>
            statOf ((dl.set (dayIndex off now n tx).toNat
                (record (dl.getD (dayIndex off now n tx).toNat stat0) tx)).getD j stat0)
              (l.filter (dailyPred off now n j))) =
          (List.range n).map (fun j =>
            statOf (dl.getD j stat0) ((tx :: l).filter (dailyPred off now n j))) := by
        intro dl hdl
        apply List.map_congr_left
        intro j hj
        have hjn : j < n := List.mem_range.1 hj
        by_cases hji : j = (dayIndex off now n tx).toNat
        · subst hji
          have hpred : dailyPred off now n ((dayIndex off now n tx).toNat) tx = true := by
            simp [dailyPred, hacc, Int.toNat_of_nonneg hge]
          rw [List.filter_cons, if_pos hpred,
            getD_set_self _ _ _ (by rw [hdl]; exact hitoNat)]
          rfl
        · have hne : dayIndex off now n tx ≠ (j : ℤ) := by
            rw [← hicast]
            exact fun H => hji (by exact_mod_cast H.symm)
          have hpred : dailyPred off now n j tx = false := by
            simp only [dailyPred, hacc, Bool.true_and]
            exact beq_eq_false_iff_ne.2 hne
          rw [List.filter_cons, if_neg (by simp [hpred]),
            getD_set_ne _ _ _ _ (fun H => hji H.symm) (by rw [hdl]; exact hjn)]
      by_cases hdx : dayIndex off now n tx = (n : ℤ) - 1
      · have hstep : step off now n st tx = .ok
            ⟨record st.report tx,
             st.daily.set (dayIndex off now n tx).toNat
               (record (st.daily.getD (dayIndex off now n tx).toNat stat0) tx),
             st.hourly.set (hourOf off tx.TimeReceived).toNat
               (record (st.hourly.getD (hourOf off tx.TimeReceived).toNat stat0) tx)⟩ := by
          simp only [step, hacc, if_true]
          rw [recordAt_ok _ _ _ hge (by rw [hd]; exact hitoNat), ok_bind,
            if_pos hdx,
            recordAt_ok _ _ _ (hourOf_nonneg off tx.TimeReceived)
              (by rw [hh]; exact hh24), ok_bind]
        rw [hstep, ok_bind,
          ih _ (by simp [hd]) (by simp [hh]) htail]
        have e1 : statOf (record st.report tx) (l.filter (accept off now n)) =
            statOf st.report ((tx :: l).filter (accept off now n)) := by
          rw [List.filter_cons, if_pos hacc]; rfl
        have e2 := e2core st.daily hd
        have e3 : (List.range 24).map (fun h =>
              statOf ((st.hourly.set (hourOf off tx.TimeReceived).toNat
                  (record (st.hourly.getD (hourOf off tx.TimeReceived).toNat stat0) tx)).getD h stat0)
                (l.filter (hourlyPred off now n h))) =
            (List.range 24).map (fun h =>
              statOf (st.hourly.getD h stat0) ((tx :: l).filter (hourlyPred off now n h))) := by
          apply List.map_congr_left
          intro h' hj
          have hj24 : h' < 24 := List.mem_range.1 hj
          by_cases hji : h' = (hourOf off tx.TimeReceived).toNat
          · subst hji
            have hpred :
                hourlyPred off now n ((hourOf off tx.TimeReceived).toNat) tx = true := by
              simp [hourlyPred, hacc, hdx,
                Int.toNat_of_nonneg (hourOf_nonneg off tx.TimeReceived)]
            rw [List.filter_cons, if_pos hpred,
              getD_set_self _ _ _ (by rw [hh]; exact hh24)]
            rfl
          · have hne : hourOf off tx.TimeReceived ≠ (h' : ℤ) := by
              rw [← hhcast]
              exact fun H => hji (by exact_mod_cast H.symm)
            have hpred : hourlyPred off now n h' tx = false := by
              simp only [hourlyPred, hacc, hdx, Bool.true_and, beq_self_eq_true]
              exact beq_eq_false_iff_ne.2 hne
            rw [List.filter_cons, if_neg (by simp [hpred]),
              getD_set_ne _ _ _ _ (fun H => hji H.symm) (by rw [hh]; exact hj24)]
        rw [e1, e2, e3]
      · have hstep : step off now n st tx = .ok
            ⟨record st.report tx,
             st.daily.set (dayIndex off now n tx).toNat
               (record (st.daily.getD (dayIndex off now n tx).toNat stat0) tx),
             st.hourly⟩ := by
          simp only [step, hacc, if_true]
          rw [recordAt_ok _ _ _ hge (by rw [hd]; exact hitoNat), ok_bind,
            if_neg hdx, ok_bind]
        rw [hstep, ok_bind,
          ih _ (by simp [hd]) (by simp [hh]) htail]
        have e1 : statOf (record st.report tx) (l.filter (accept off now n)) =
            statOf st.report ((tx :: l).filter (accept off now n)) := by
          rw [List.filter_cons, if_pos hacc]; rfl
        have e2 := e2core st.daily hd
        have e3 : (List.range 24).map (fun h =>
              statOf (st.hourly.getD h stat0) (l.filter (hourlyPred off now n h))) =
            (List.range 24).map (fun h =>
              statOf (st.hourly.getD h stat0) ((tx :: l).filter (hourlyPred off now n h))) := by
          apply List.map_congr_left
          intro h' _
          have hpred : hourlyPred off now n h' tx = false := by
            simp only [hourlyPred, hacc, Bool.true_and, Bool.and_eq_false_iff]
            exact Or.inl (beq_eq_false_iff_ne.2 hdx)
          rw [List.filter_cons, if_neg (by simp [hpred])]
        rw [e1, e2, e3]
    · have hacc' : accept off now n tx = false := by
        rw [← Bool.not_eq_true]; exact hacc
      have hstep : step off now n st tx = .ok st := by
        simp [step, hacc']
      rw [hstep, ok_bind,
        ih st hd hh (fun tx' h' => hin tx' (List.mem_cons_of_mem _ h'))]
      have f1 : (tx :: l).filter (accept off now n) = l.filter (accept off now n) := by
        rw [List.filter_cons, if_neg (by simp [hacc'])]
      have f2 : ∀ j, (tx :: l).filter (dailyPred off now n j) =
          l.filter (dailyPred off now n j) := by
        intro j
        rw [List.filter_cons, if_neg (by simp [dailyPred, hacc'])]
      have f3 : ∀ h, (tx :: l).filter (hourlyPred off now n h) =
          l.filter (hourlyPred off now n h) := by
        intro h
        rw [List.filter_cons, if_neg (by simp [hourlyPred, hacc'])]
      simp only [f1, f2, f3]

/-- `aggregate` never panics under wallet-observed timestamps, and its
result is `specAgg`: each bucket is the fold of `record` over the sublist
its routing predicate selects. -/
theorem aggregate_eq_spec (off now : ℤ) (n : ℕ) (l : List Transaction)
    (hn : 1 ≤ n) (hts : ∀ tx ∈ l, tx.TimeReceived ≤ now) :
    aggregate off now n l = .ok (specAgg off now n l) := by
  rw [aggregate,
    foldlM_step_eq off now n l (initState n) (by simp [initState])
      (by simp [initState]) (accepted_bounds hn hts)]
  simp only [specAgg, initState, getD_replicate]

/-- The transaction count of a fold of `record`: one per transaction. -/
theorem statOf_blocks (l : List Transaction) :
    ∀ s : StatData, (statOf s l).blocks = s.blocks + l.length := by
  induction l with
  | nil => intro s; simp [statOf]
  | cons tx l ih =>
    intro s
    show (statOf (record s tx) l).blocks = s.blocks + (tx :: l).length
    rw [ih]
    simp only [record, List.length_cons]
    push_cast
    ring

/-- The coin total of a fold of `record`: the sum of the amounts. -/
theorem statOf_coins (l : List Transaction) :
    ∀ s : StatData, (statOf s l).coins = s.coins + (l.map Transaction.Amount).sum := by
  induction l with
  | nil => intro s; simp [statOf]
  | cons tx l ih =>
    intro s
    show (statOf (record s tx) l).coins = s.coins + ((tx :: l).map Transaction.Amount).sum
    rw [ih]
    simp only [record, List.map_cons, List.sum_cons]
    ring

/-- The loop's three `continue` checks, combined, are exactly the
predicate "`generated`, `confirmations >= 2`, and timestamp not before
`beginReport`". -/
theorem accept_eq (off now : ℤ) (n : ℕ) (tx : Transaction) :
    accept off now n tx =
      (tx.Generated && decide (2 ≤ tx.Confirmations) &&
        decide (beginReport off now n ≤ tx.TimeReceived)) := by
  cases hG : tx.Generated
  · simp [accept, hG]
  · by_cases h1 : tx.Confirmations < 2
    · have h1' : ¬ (2 ≤ tx.Confirmations) := not_le.2 h1
      simp [accept, hG, h1, h1']
    · have h1' : 2 ≤ tx.Confirmations := not_lt.1 h1
      by_cases h2 : tx.TimeReceived < beginReport off now n
      · have h2' : ¬ (beginReport off now n ≤ tx.TimeReceived) := not_le.2 h2
        simp [accept, hG, h1, h1', h2, h2']
      · have h2' : beginReport off now n ≤ tx.TimeReceived := not_lt.1 h2
        simp [accept, hG, h1, h1', h2, h2']

/-- A selective sum over a cons: the head contributes iff the predicate
holds of it. -/
theorem wsum_cons {M : Type} [AddCommMonoid M] (g : Transaction → M)
    (q : Transaction → Bool) (a : Transaction) (l : List Transaction) :
    wsum g q (a :: l) = (if q a = true then g a else 0) + wsum g q l := by
  by_cases hq : q a = true
  · simp [wsum, List.filter_cons, hq]
  · simp [wsum, List.filter_cons, hq]

/-- Fibre decomposition: summing a selective sum over the fibres of an
integer-valued index function recovers the whole selective sum, provided
the index of every selected element lies in `[0, m)`. -/
theorem wsum_partition {M : Type} [AddCommMonoid M] (g : Transaction → M)
    (p : Transaction → Bool) (f : Transaction → ℤ) (m : ℕ) :
    ∀ l : List Transaction,
      (∀ tx ∈ l, p tx = true → 0 ≤ f tx ∧ f tx < (m : ℤ)) →
      (∑ j ∈ Finset.range m, wsum g (fun tx => p tx && (f tx == (j : ℤ))) l) =
        wsum g p l := by
  intro l
  induction l with
  | nil => intro _; simp [wsum]
  | cons a l ih =>
    intro hb
    have htail := fun tx h => hb tx (List.mem_cons_of_mem _ h)
    by_cases hpa : p a = true
    · obtain ⟨h0, h1⟩ := hb a (List.mem_cons_self a l) hpa
      have hcast : ((f a).toNat : ℤ) = f a := Int.toNat_of_nonneg h0
      have hm0 : m ≠ 0 := by omega
      have hmem : (f a).toNat ∈ Finset.range m :=
        Finset.mem_range.2 ((Int.toNat_lt' hm0).2 h1)
      have hsplit : ∀ j ∈ Finset.range m,
          wsum g (fun tx => p tx && (f tx == (j : ℤ))) (a :: l) =
            (if j = (f a).toNat then g a else 0) +
              wsum g (fun tx => p tx && (f tx == (j : ℤ))) l := by
        intro j _
        rw [wsum_cons]
        congr 1
        by_cases hje : j = (f a).toNat
        · subst hje
          rw [if_pos rfl, if_pos]
          simp [hpa, hcast]
        · rw [if_neg hje, if_neg]
          simp only [hpa, Bool.true_and, beq_iff_eq]
          rw [← hcast]
          intro H
          exact hje (by exact_mod_cast H.symm)
      rw [Finset.sum_congr rfl hsplit, Finset.sum_add_distrib,
        Finset.sum_ite_eq' (Finset.range m) ((f a).toNat) (fun _ => g a),
        if_pos hmem, ih htail, wsum_cons, if_pos hpa]
    · have hpa' : p a = false := by rw [← Bool.not_eq_true]; exact hpa
      have hdrop : ∀ j, wsum g (fun tx => p tx && (f tx == (j : ℤ))) (a :: l) =
          wsum g (fun tx => p tx && (f tx == (j : ℤ))) l := by
        intro j; simp [wsum, List.filter_cons, hpa']
      simp only [hdrop, wsum_cons, if_neg (by simp [hpa'] :
        ¬ p a = true), zero_add]
      exact ih htail

/-- A `countP` is the selective sum of the constant 1. -/
theorem countP_eq_wsum (q : Transaction → Bool) (l : List Transaction) :
    l.countP q = wsum (fun _ => (1 : ℕ)) q l := by
  rw [List.countP_eq_length_filter, wsum]
  have key : ∀ L : List Transaction, (L.map (fun _ => (1 : ℕ))).sum = L.length := by
    intro L
    induction L with
    | nil => rfl
    | cons a L ih => simp [ih, Nat.add_comm]
  exact (key _).symm

/-- The count of a bucket built by folding `record` over a filter. -/
theorem blocks_statOf_filter (q : Transaction → Bool) (l : List Transaction) :
    (statOf stat0 (l.filter q)).blocks = (l.countP q : ℤ) := by
  rw [statOf_blocks, List.countP_eq_length_filter]
  show (0 : ℤ) + _ = _
  omega

/-- The coin total of a bucket built by folding `record` over a filter. -/
theorem coins_statOf_filter (q : Transaction → Bool) (l : List Transaction) :
    (statOf stat0 (l.filter q)).coins = wsum Transaction.Amount q l := by
  rw [statOf_coins, wsum]
  show (0 : ℚ) + _ = _
  rw [zero_add]

/-- Fibre decomposition of a count over the fibres of an integer-valued
index function. -/
theorem countP_partition (p : Transaction → Bool) (f : Transaction → ℤ)
    (m : ℕ) (l : List Transaction)
    (hb : ∀ tx ∈ l, p tx = true → 0 ≤ f tx ∧ f tx < (m : ℤ)) :
    (∑ j ∈ Finset.range m, l.countP (fun tx => p tx && (f tx == (j : ℤ)))) =
      l.countP p := by
  simp only [countP_eq_wsum]
  exact wsum_partition (fun _ => (1 : ℕ)) p f m l hb

/-- C1: filter correctness. Under wallet-observed timestamps
(`tx.TimeReceived ≤ now`) and `reportDays ≥ 2`, the aggregation pass
(main.go lines 131-153) completes, the period accumulator counts exactly
the transactions with `generated == true`, `confirmations >= 2` and
timestamp not before `periodStart = midnight(now) - (reportDays-1) days`,
and every daily and hourly bucket counts exactly the transactions of that
kind routed to it — so a transaction contributes to some bucket's count
iff it satisfies the three conditions. -/
theorem filter_correctness (off now : ℤ) (n : ℕ) (l : List Transaction)
    (hn : 2 ≤ n) (hts : ∀ tx ∈ l, tx.TimeReceived ≤ now) :
    ∃ st, aggregate off now n l = .ok st ∧
      st.report.blocks = (l.countP (fun tx =>
        tx.Generated && decide (2 ≤ tx.Confirmations) &&
          decide (beginReport off now n ≤ tx.TimeReceived)) : ℤ) ∧
      (∀ j, j < n → (st.daily.getD j stat0).blocks = (l.countP (fun tx =>
        (tx.Generated && decide (2 ≤ tx.Confirmations) &&
          decide (beginReport off now n ≤ tx.TimeReceived)) &&
        (dayIndex off now n tx == (j : ℤ))) : ℤ)) ∧
      (∀ h, h < 24 → (st.hourly.getD h stat0).blocks = (l.countP (fun tx =>
        (tx.Generated && decide (2 ≤ tx.Confirmations) &&
          decide (beginReport off now n ≤ tx.TimeReceived)) &&
        (dayIndex off now n tx == (n : ℤ) - 1) &&
        (hourOf off tx.TimeReceived == (h : ℤ))) : ℤ)) := by
  have hfe : accept off now n = (fun tx =>
      tx.Generated && decide (2 ≤ tx.Confirmations) &&
        decide (beginReport off now n ≤ tx.TimeReceived)) :=
    funext (accept_eq off now n)
  refine ⟨specAgg off now n l,
    aggregate_eq_spec off now n l (by omega) hts, ?_, ?_, ?_⟩
  · show (statOf stat0 (l.filter (accept off now n))).blocks = _
    rw [blocks_statOf_filter, hfe]
  · intro j hj
    have hdp : dailyPred off now n j = (fun tx =>
        (tx.Generated && decide (2 ≤ tx.Confirmations) &&
          decide (beginReport off now n ≤ tx.TimeReceived)) &&
        (dayIndex off now n tx == (j : ℤ))) := by
      funext tx
      rw [show dailyPred off now n j tx =
        (accept off now n tx && (dayIndex off now n tx == (j : ℤ))) from rfl,
        accept_eq]
    show (((List.range n).map (fun j =>
      statOf stat0 (l.filter (dailyPred off now n j)))).getD j stat0).blocks = _
    rw [getD_range_map _ _ _ hj, blocks_statOf_filter, hdp]
  · intro h hh
    have hhp : hourlyPred off now n h = (fun tx =>
        (tx.Generated && decide (2 ≤ tx.Confirmations) &&
          decide (beginReport off now n ≤ tx.TimeReceived)) &&
        (dayIndex off now n tx == (n : ℤ) - 1) &&
        (hourOf off tx.TimeReceived == (h : ℤ))) := by
      funext tx
      rw [show hourlyPred off now n h tx =
        (accept off now n tx && (dayIndex off now n tx == (n : ℤ) - 1) &&
          (hourOf off tx.TimeReceived == (h : ℤ))) from rfl,
        accept_eq]
    show (((List.range 24).map (fun h =>
      statOf stat0 (l.filter (hourlyPred off now n h)))).getD h stat0).blocks = _
    rw [getD_range_map _ _ _ hh, blocks_statOf_filter, hhp]

/-- Witness for C1: one generated, 5-confirmation, in-window transaction
at `off = 0`, `now = 900000`, `reportDays = 2`. -/
theorem filter_correctness_witness :
    (2 ≤ 2) ∧
    (∀ tx ∈ ([⟨1, 5, true, 5, 899900⟩] : List Transaction),
      tx.TimeReceived ≤ (900000 : ℤ)) ∧
    ∃ st, aggregate 0 900000 2 [⟨1, 5, true, 5, 899900⟩] = .ok st ∧
      st.report.blocks = (([⟨1, 5, true, 5, 899900⟩] : List Transaction).countP
        (fun tx => tx.Generated && decide (2 ≤ tx.Confirmations) &&
          decide (beginReport 0 900000 2 ≤ tx.TimeReceived)) : ℤ) ∧
      (∀ j, j < 2 → (st.daily.getD j stat0).blocks =
        (([⟨1, 5, true, 5, 899900⟩] : List Transaction).countP (fun tx =>
          (tx.Generated && decide (2 ≤ tx.Confirmations) &&
            decide (beginReport 0 900000 2 ≤ tx.TimeReceived)) &&
          (dayIndex 0 900000 2 tx == (j : ℤ))) : ℤ)) ∧
      (∀ h, h < 24 → (st.hourly.getD h stat0).blocks =
        (([⟨1, 5, true, 5, 899900⟩] : List Transaction).countP (fun tx =>
          (tx.Generated && decide (2 ≤ tx.Confirmations) &&
            decide (beginReport 0 900000 2 ≤ tx.TimeReceived)) &&
          (dayIndex 0 900000 2 tx == (2 : ℤ) - 1) &&
          (hourOf 0 tx.TimeReceived == (h : ℤ))) : ℤ)) :=
  ⟨by norm_num, by decide,
   filter_correctness 0 900000 2 [⟨1, 5, true, 5, 899900⟩] (by norm_num) (by decide)⟩

/-- C2: bucket routing. Under wallet-observed timestamps, the aggregation
pass completes, each daily and hourly bucket of its result is exactly the
fold of `record` over the sublist its routing predicate selects, and
every accepted transaction belongs to exactly one daily routing sublist —
the one of index `dayIndex = floor((timestamp - periodStart)/24h)`
(main.go lines 147-148) — and belongs to an hourly routing sublist iff
its day index equals `reportDays - 1`, in which case that sublist is the
one of its local hour (main.go lines 150-152). -/
theorem bucket_routing (off now : ℤ) (n : ℕ) (l : List Transaction)
    (hn : 2 ≤ n) (hts : ∀ tx ∈ l, tx.TimeReceived ≤ now) :
    ∃ st, aggregate off now n l = .ok st ∧
      (∀ j, j < n → st.daily.getD j stat0 =
        statOf stat0 (l.filter (dailyPred off now n j))) ∧
      (∀ h, h < 24 → st.hourly.getD h stat0 =
        statOf stat0 (l.filter (hourlyPred off now n h))) ∧
      (∀ tx ∈ l, accept off now n tx = true →
        ((dayIndex off now n tx).toNat < n ∧
          tx ∈ l.filter (dailyPred off now n (dayIndex off now n tx).toNat)) ∧
        (∃! j : ℕ, j < n ∧ tx ∈ l.filter (dailyPred off now n j)) ∧
        (∀ h, h < 24 → (tx ∈ l.filter (hourlyPred off now n h) ↔
          (dayIndex off now n tx = (n : ℤ) - 1 ∧
            hourOf off tx.TimeReceived = (h : ℤ))))) := by
  refine ⟨specAgg off now n l,
    aggregate_eq_spec off now n l (by omega) hts, ?_, ?_, ?_⟩
  · intro j hj
    show ((List.range n).map (fun j =>
      statOf stat0 (l.filter (dailyPred off now n j)))).getD j stat0 = _
    rw [getD_range_map _ _ _ hj]
  · intro h hh
    show ((List.range 24).map (fun h =>
      statOf stat0 (l.filter (hourlyPred off now n h)))).getD h stat0 = _
    rw [getD_range_map _ _ _ hh]
  · intro tx hm hacc
    obtain ⟨hge, hlt⟩ := accepted_bounds (by omega) hts tx hm hacc
    have hcast : ((dayIndex off now n tx).toNat : ℤ) = dayIndex off now n tx :=
      Int.toNat_of_nonneg hge
    have htn : (dayIndex off now n tx).toNat < n := by omega
    have hmem : tx ∈ l.filter (dailyPred off now n (dayIndex off now n tx).toNat) := by
      rw [List.mem_filter]
      refine ⟨hm, ?_⟩
      simp [dailyPred, hacc, hcast]
    refine ⟨⟨htn, hmem⟩, ⟨(dayIndex off now n tx).toNat, ⟨htn, hmem⟩, ?_⟩, ?_⟩
    · intro j hj
      obtain ⟨hjn, hjmem⟩ := hj
      rw [List.mem_filter] at hjmem
      have hEq : dayIndex off now n tx = (j : ℤ) := by
        simpa [dailyPred, hacc] using hjmem.2
      omega
    · intro h _
      rw [List.mem_filter]
      constructor
      · rintro ⟨-, hp⟩
        simpa [hourlyPred, hacc] using hp
      · rintro ⟨h1, h2⟩
        exact ⟨hm, by simp [hourlyPred, hacc, h1, h2]⟩

/-- Witness for C2 at the same concrete input as C1's witness. -/
theorem bucket_routing_witness :
    (2 ≤ 2) ∧
    (∀ tx ∈ ([⟨1, 5, true, 5, 899900⟩] : List Transaction),
      tx.TimeReceived ≤ (900000 : ℤ)) ∧
    ∃ st, aggregate 0 900000 2 [⟨1, 5, true, 5, 899900⟩] = .ok st ∧
      (∀ j, j < 2 → st.daily.getD j stat0 =
        statOf stat0 (([⟨1, 5, true, 5, 899900⟩] : List Transaction).filter
          (dailyPred 0 900000 2 j))) ∧
      (∀ h, h < 24 → st.hourly.getD h stat0 =
        statOf stat0 (([⟨1, 5, true, 5, 899900⟩] : List Transaction).filter
          (hourlyPred 0 900000 2 h))) ∧
      (∀ tx ∈ ([⟨1, 5, true, 5, 899900⟩] : List Transaction),
        accept 0 900000 2 tx = true →
        ((dayIndex 0 900000 2 tx).toNat < 2 ∧
          tx ∈ ([⟨1, 5, true, 5, 899900⟩] : List Transaction).filter
            (dailyPred 0 900000 2 (dayIndex 0 900000 2 tx).toNat)) ∧
        (∃! j : ℕ, j < 2 ∧
          tx ∈ ([⟨1, 5, true, 5, 899900⟩] : List Transaction).filter
            (dailyPred 0 900000 2 j)) ∧
        (∀ h, h < 24 →
          (tx ∈ ([⟨1, 5, true, 5, 899900⟩] : List Transaction).filter
              (hourlyPred 0 900000 2 h) ↔
            (dayIndex 0 900000 2 tx = (2 : ℤ) - 1 ∧
              hourOf 0 tx.TimeReceived = (h : ℤ))))) :=
  ⟨by norm_num, by decide,
   bucket_routing 0 900000 2 [⟨1, 5, true, 5, 899900⟩] (by norm_num) (by decide)⟩

/-- C3: sum conservation. Under wallet-observed timestamps, the period
accumulator's `coins` equals the sum of the `coins` of the `reportDays`
daily buckets, and likewise for `count` (main.go lines 145-148). -/
theorem sum_conservation (off now : ℤ) (n : ℕ) (l : List Transaction)
    (hn : 2 ≤ n) (hts : ∀ tx ∈ l, tx.TimeReceived ≤ now) :
    ∃ st, aggregate off now n l = .ok st ∧
      st.report.coins = (∑ j ∈ Finset.range n, (st.daily.getD j stat0).coins) ∧
      st.report.blocks = (∑ j ∈ Finset.range n, (st.daily.getD j stat0).blocks) := by
  refine ⟨specAgg off now n l,
    aggregate_eq_spec off now n l (by omega) hts, ?_, ?_⟩
  · have hsum : ∀ j ∈ Finset.range n,
        ((specAgg off now n l).daily.getD j stat0).coins =
          wsum Transaction.Amount (dailyPred off now n j) l := by
      intro j hj
      show (((List.range n).map (fun j =>
        statOf stat0 (l.filter (dailyPred off now n j)))).getD j stat0).coins = _
      rw [getD_range_map _ _ _ (Finset.mem_range.1 hj), coins_statOf_filter]
    rw [Finset.sum_congr rfl hsum]
    have hpart : (∑ j ∈ Finset.range n,
        wsum Transaction.Amount (dailyPred off now n j) l) =
          wsum Transaction.Amount (accept off now n) l := by
      exact wsum_partition Transaction.Amount (accept off now n)
        (fun tx => dayIndex off now n tx) n l (accepted_bounds (by omega) hts)
    rw [hpart]
    show (statOf stat0 (l.filter (accept off now n))).coins = _
    rw [coins_statOf_filter]
  · have hsum : ∀ j ∈ Finset.range n,
        ((specAgg off now n l).daily.getD j stat0).blocks =
          (l.countP (dailyPred off now n j) : ℤ) := by
      intro j hj
      show (((List.range n).map (fun j =>
        statOf stat0 (l.filter (dailyPred off now n j)))).getD j stat0).blocks = _
      rw [getD_range_map _ _ _ (Finset.mem_range.1 hj), blocks_statOf_filter]
    rw [Finset.sum_congr rfl hsum, ← Nat.cast_sum]
    have hpart : (∑ j ∈ Finset.range n, l.countP (dailyPred off now n j)) =
        l.countP (accept off now n) := by
      exact countP_partition (accept off now n) (fun tx => dayIndex off now n tx)
        n l (accepted_bounds (by omega) hts)
    rw [hpart]
    show (statOf stat0 (l.filter (accept off now n))).blocks = _
    rw [blocks_statOf_filter]

/-- Witness for C3 at the same concrete input as C1's witness. -/
theorem sum_conservation_witness :
    (2 ≤ 2) ∧
    (∀ tx ∈ ([⟨1, 5, true, 5, 899900⟩] : List Transaction),
      tx.TimeReceived ≤ (900000 : ℤ)) ∧
    ∃ st, aggregate 0 900000 2 [⟨1, 5, true, 5, 899900⟩] = .ok st ∧
      st.report.coins = (∑ j ∈ Finset.range 2, (st.daily.getD j stat0).coins) ∧
      st.report.blocks = (∑ j ∈ Finset.range 2, (st.daily.getD j stat0).blocks) :=
  ⟨by norm_num, by decide,
   sum_conservation 0 900000 2 [⟨1, 5, true, 5, 899900⟩] (by norm_num) (by decide)⟩

/-- Counterexample to C8: aggregation is *not* order-independent. Two
accepted transactions with block heights 5 and 0 (`off = 0`,
`now = 900000`, `reportDays = 2`): recorded as `[5, 0]` the period
accumulator ends with `firstBlock = 0`, but as `[0, 5]` the
`s.firstBlock == 0` sentinel check (main.go line 42) fires again on the
second call and ends with `firstBlock = 5` — a permutation of the input
changes the final accumulator states. -/
theorem aggregate_order_dependent :
    ([⟨1, 5, true, 0, 899900⟩, ⟨1, 5, true, 5, 899900⟩] : List Transaction).Perm
      [⟨1, 5, true, 5, 899900⟩, ⟨1, 5, true, 0, 899900⟩] ∧
    (aggregate 0 900000 2
        [⟨1, 5, true, 5, 899900⟩, ⟨1, 5, true, 0, 899900⟩]).toOption.map
      (fun st => st.report.firstBlock) = some 0 ∧
    (aggregate 0 900000 2
        [⟨1, 5, true, 0, 899900⟩, ⟨1, 5, true, 5, 899900⟩]).toOption.map
      (fun st => st.report.firstBlock) = some 5 ∧
    aggregate 0 900000 2 [⟨1, 5, true, 5, 899900⟩, ⟨1, 5, true, 0, 899900⟩] ≠
      aggregate 0 900000 2 [⟨1, 5, true, 0, 899900⟩, ⟨1, 5, true, 5, 899900⟩] := by
  have h1 : (aggregate 0 900000 2
      [⟨1, 5, true, 5, 899900⟩, ⟨1, 5, true, 0, 899900⟩]).toOption.map
      (fun st => st.report.firstBlock) = some 0 := by decide
  have h2 : (aggregate 0 900000 2
      [⟨1, 5, true, 0, 899900⟩, ⟨1, 5, true, 5, 899900⟩]).toOption.map
      (fun st => st.report.firstBlock) = some 5 := by decide
  refine ⟨List.Perm.swap _ _ _, h1, h2, fun h => ?_⟩
  rw [h] at h1
  rw [h1] at h2
  exact absurd h2 (by decide)

/-- `record` keeps `firstBlock` non-negative for transactions with
non-negative block heights. -/
theorem record_firstBlock_nonneg (s : StatData) (tx : Transaction)
    (hs : 0 ≤ s.firstBlock) (hx : 0 ≤ tx.Blockheight) :
    0 ≤ (record s tx).firstBlock := by
  simp only [record]
  split <;> omega

/-- Two `record` calls commute when both block heights are positive and
the state's `firstBlock` is non-negative (the conditions under which the
`firstBlock == 0` sentinel cannot fire spuriously). -/
theorem record_comm (s : StatData) (a b : Transaction)
    (hs : 0 ≤ s.firstBlock) (ha : 0 < a.Blockheight) (hb : 0 < b.Blockheight) :
    record (record s a) b = record (record s b) a := by
  simp only [record, gt_iff_lt]
  rw [StatData.mk.injEq]
  refine ⟨?_, ?_, rfl, ?_⟩
  · split_ifs <;> omega
  · split_ifs <;> omega
  · ring

/-- Folding `record` over a permuted list from any state with
non-negative `firstBlock` yields the same result, provided all block
heights are positive. -/
theorem foldl_record_perm {l1 l2 : List Transaction} (hp : l1.Perm l2) :
    ∀ s : StatData, (∀ tx ∈ l1, 0 < tx.Blockheight) → 0 ≤ s.firstBlock →
      l1.foldl record s = l2.foldl record s := by
  induction hp with
  | nil => intro s _ _; rfl
  | cons x _ ih =>
    intro s hpos hs
    rw [List.foldl_cons, List.foldl_cons]
    exact ih (record s x) (fun tx h => hpos tx (List.mem_cons_of_mem _ h))
      (record_firstBlock_nonneg s x hs (le_of_lt (hpos x (List.mem_cons_self x _))))
  | swap x y l' =>
    intro s hpos hs
    rw [List.foldl_cons, List.foldl_cons, List.foldl_cons, List.foldl_cons,
      record_comm s y x hs (hpos y (by simp)) (hpos x (by simp))]
  | trans h1 _ ih1 ih2 =>
    intro s hpos hs
    rw [ih1 s hpos hs, ih2 s (fun tx h => hpos tx (h1.mem_iff.2 h)) hs]

/-- C8 as amended: aggregation is order-independent provided every
transaction's block height is positive (the realistic case: every
accepted transaction has ≥ 2 confirmations, hence sits in a real block).
Without that proviso the `firstBlock == 0` sentinel makes the final
`firstBlock` depend on input order, as the counterexample shows. -/
theorem aggregate_perm (off now : ℤ) (n : ℕ) (l l' : List Transaction)
    (hn : 2 ≤ n) (hperm : l.Perm l')
    (hpos : ∀ tx ∈ l, 0 < tx.Blockheight)
    (hts : ∀ tx ∈ l, tx.TimeReceived ≤ now) :
    aggregate off now n l = aggregate off now n l' := by
  have hts' : ∀ tx ∈ l', tx.TimeReceived ≤ now :=
    fun tx h => hts tx (hperm.mem_iff.2 h)
  rw [aggregate_eq_spec off now n l (by omega) hts,
    aggregate_eq_spec off now n l' (by omega) hts']
  have comp : ∀ q : Transaction → Bool,
      statOf stat0 (l.filter q) = statOf stat0 (l'.filter q) := by
    intro q
    exact foldl_record_perm (hperm.filter q) stat0
      (fun tx h => hpos tx (List.mem_of_mem_filter h)) (le_refl 0)
  simp only [specAgg, comp]

/-- Witness for C8's amended statement: two accepted transactions with
positive heights 5 and 6, swapped. -/
theorem aggregate_perm_witness :
    (2 ≤ 2) ∧
    ([⟨1, 5, true, 5, 899900⟩, ⟨2, 5, true, 6, 899900⟩] : List Transaction).Perm
      [⟨2, 5, true, 6, 899900⟩, ⟨1, 5, true, 5, 899900⟩] ∧
    (∀ tx ∈ ([⟨1, 5, true, 5, 899900⟩, ⟨2, 5, true, 6, 899900⟩] : List Transaction),
      0 < tx.Blockheight) ∧
    (∀ tx ∈ ([⟨1, 5, true, 5, 899900⟩, ⟨2, 5, true, 6, 899900⟩] : List Transaction),
      tx.TimeReceived ≤ (900000 : ℤ)) ∧
    aggregate 0 900000 2 [⟨1, 5, true, 5, 899900⟩, ⟨2, 5, true, 6, 899900⟩] =
      aggregate 0 900000 2 [⟨2, 5, true, 6, 899900⟩, ⟨1, 5, true, 5, 899900⟩] :=
  ⟨by norm_num, List.Perm.swap _ _ _, by decide, by decide,
   aggregate_perm 0 900000 2 _ _ (by norm_num) (List.Perm.swap _ _ _)
     (by decide) (by decide)⟩

end DynamoTxStats
